import Mathlib

/-!
Shallow embedding of schedhack.rs (src/src/main.rs), a delayed-work scheduler.

The program keeps a LinkedList of `Timeout` records whose `delay` fields are
deltas relative to the previous entry.  Submitters lock the shared list,
insert the new timeout with a cursor walk, and send a unit notification to
the timekeeper thread when the insertion lands at the front.  The timekeeper
waits `head.delay` on the notification channel; on an early wake it debits
the head by the time slept, on a timeout it removes the head and dispatches
its work.

Durations are modelled as natural numbers (milliseconds).  Rust `Duration`
subtraction panics on underflow; in every executed path of the source the
subtrahend has just been compared against the minuend, so truncated `Nat`
subtraction agrees with the source exactly.

Cursor semantics used by the source (unstable linked_list_cursors API):
- `cursor_front_mut` points at the first element, or at the "ghost"
  non-element when the list is empty;
- `current()` returns `None` at the ghost; `move_next` from the last
  element moves to the ghost;
- `index()` returns the position of the current element, `None` at the ghost;
- `insert_before(x)` inserts `x` before the current element (the cursor then
  has index one greater than before);
- `insert_after(x)` at the ghost inserts `x` at the FRONT of the list (std
  splices the new node between the ghost and the head).  The source calls
  `insert_after` when the walk runs off the end, so a run-off-the-end
  insertion lands at the front of the queue, not at the back.
-/

namespace Schedhack

/-- The `Timeout` struct of the source.  The `work` closure is opaque and
irrelevant to the queue logic; dispatch identity is tracked through `id`.
`delay` is the delta relative to the previous queue entry; the two `dbg_`
fields are the diagnostic fields of the source. -/
structure Timeout where
  id : Nat
  delay : Nat
  dbg_init_ticks : Nat
  dbg_expected_trigger : Nat
deriving Repr, DecidableEq

/-- The `eq` of `impl PartialEq for Timeout`: equality is id equality. -/
def timeout_eq (a b : Timeout) : Bool :=
  a.id == b.id

/-- `Timeout::new`, with the global `ID_COUNTER` and the current clock passed
explicitly: increments the counter, stamps the new id, and records the
diagnostic fields.  Returns the new timeout and the updated counter. -/
def Timeout.new (counter now delay : Nat) : Timeout × Nat :=
  (⟨counter + 1, delay, delay, now + delay⟩, counter + 1)

/-- The cursor walk of `delayed_work_submit`.  `d` is the running value of
`new.delay` (the source mutates the field in place).  At an entry `t` with
`t.delay > d` it splits: `t.delay -= d`, `insert_before(new)` with `new`'s
delay field holding `d`; the returned `Nat` is the position of the inserted
element (so the cursor's `index()` is that plus one).  At every other entry
it debits `d` by `t.delay` and moves on.  Running off the end is reported as
`Sum.inr` with the final remaining value, to be resolved by the caller's
`insert_after` at the ghost. -/
def submitWalk (new : Timeout) (d : Nat) : List Timeout → Sum (List Timeout × Nat) Nat
  | [] => Sum.inr d
  | t :: ts =>
    if t.delay > d then
      Sum.inl ({ new with delay := d } :: { t with delay := t.delay - d } :: ts, 0)
    else
      match submitWalk new (d - t.delay) ts with
      | Sum.inl (ts', i) => Sum.inl (t :: ts', i + 1)
      | Sum.inr r => Sum.inr r

/-- The queue effect of `delayed_work_submit` once the lock is held: the new
queue, and whether the unit notification was sent.  In the split case the
source notifies iff `index()` is `Some(1)`, i.e. iff the new element sits at
position 0.  In the run-off-the-end case `insert_after` at the ghost puts
the new element (carrying the final remaining value) at the FRONT of the
list, and `index()` is `None` there, so the notification is always sent. -/
def delayed_work_submit_queue (q : List Timeout) (new : Timeout) : List Timeout × Bool :=
  match submitWalk new new.delay q with
  | Sum.inl (q', i) => (q', i == 0)
  | Sum.inr r => ({ new with delay := r } :: q, true)

/-- Outcome of a full `delayed_work_submit` call.  `lockFailed` models
`Err("Lock failed")` (poisoned mutex); `panicked` models the
`.expect` panic on the notification send when the receiver is gone. -/
inductive SubmitResult where
  | ok (queue : List Timeout) (notified : Bool)
  | lockFailed
  | panicked
deriving Repr, DecidableEq

/-- Full `delayed_work_submit`: fails with the static lock error when the
mutex is poisoned; otherwise inserts, and panics on the notification send
(when one is due) if the timekeeper's receiving end is gone. -/
def delayed_work_submit (lockPoisoned notifyReceiverGone : Bool)
    (q : List Timeout) (newT : Timeout) : SubmitResult :=
  if lockPoisoned then SubmitResult.lockFailed
  else
    let r := delayed_work_submit_queue q newT
    if r.2 && notifyReceiverGone then SubmitResult.panicked
    else SubmitResult.ok r.1 r.2

/-- `timeouts_decr_delay`: every entry whose id matches is decremented by
`change`, clamped at zero when `change` exceeds the entry's delay. -/
def timeouts_decr_delay (id change : Nat) : List Timeout → List Timeout
  | [] => []
  | t :: ts =>
    (if t.id == id then
      if change > t.delay then { t with delay := 0 }
      else { t with delay := t.delay - change }
    else t) :: timeouts_decr_delay id change ts

/-- `timeouts_remove`: scan for the first entry with the given id, remove it
and return it together with the rest of the list (the source records the
index and calls `LinkedList::remove`). -/
def timeouts_remove (id : Nat) : List Timeout → Option (Timeout × List Timeout)
  | [] => none
  | t :: ts =>
    if t.id == id then some (t, ts)
    else
      match timeouts_remove id ts with
      | some (r, ts') => some (r, t :: ts')
      | none => none

/-- Running remaining value after the walk has passed over the given
entries: `d` minus the sum of their delays, folded stepwise as the source
does. -/
def remainingAfter (d : Nat) : List Timeout → Nat
  | [] => d
  | t :: ts => remainingAfter (d - t.delay) ts

/-- The walk passes an entry when its delay is at most the running
remaining (the loop's else branch); `walksPast d p` says the walk passes
every entry of `p`. -/
def walksPast (d : Nat) : List Timeout → Bool
  | [] => true
  | t :: ts => decide (t.delay ≤ d) && walksPast (d - t.delay) ts

/-- Sum of the delay deltas over the first `k` entries of the queue. -/
def queueDelaySum (q : List Timeout) (k : Nat) : Nat :=
  List.sum (List.map Timeout.delay (List.take k q))

/-- Delta sum up to and including the first entry with the given id: the
time until that entry fires, as the queue representation encodes it. -/
def delaySumToId (i : Nat) : List Timeout → Option Nat
  | [] => none
  | t :: ts =>
    if t.id == i then some t.delay
    else Option.map (fun s => t.delay + s) (delaySumToId i ts)

/-- Number of positions at which two lists differ (pointwise on the zip). -/
def diffCount (xs ys : List Timeout) : Nat :=
  (List.filter (fun p => decide (p.1 ≠ p.2)) (List.zip xs ys)).length

/-- `Timeout::new` applied in sequence: for each (now, delay) pair, create a
timeout and thread the counter. -/
def newSeq (counter : Nat) : List (Nat × Nat) → List Timeout
  | [] => []
  | (n, d) :: rest =>
    let p := Timeout.new counter n d
    p.1 :: newSeq p.2 rest

/-- Combined state of the timekeeper loop and its queue, with a ghost log of
submissions and dispatches for stating temporal properties.  `now` is a
logical clock in milliseconds; `waited` is the time already spent inside the
current `recv_timeout` (nonzero only after a submission that did not
notify); `nextId` is the global `ID_COUNTER`.  `subLog` records
(id, submission time, requested delay); `dispatchLog` records
(id, dispatch time). -/
structure SysState where
  now : Nat
  waited : Nat
  nextId : Nat
  queue : List Timeout
  subLog : List (Nat × Nat × Nat)
  dispatchLog : List (Nat × Nat)
deriving Repr, DecidableEq

/-- Events driving the system: a submission arriving `e` ms into the current
wait (or after `e` ms of idleness) with requested delay `d`, or the current
`recv_timeout` expiring with no arrival. -/
inductive Cmd where
  | submit (e d : Nat)
  | expire
deriving Repr, DecidableEq

/-- One step of the combined system, following the source's interleaving.
A submitter always acquires the list lock first, so the queue mutation
happens before the timekeeper's wake-up runs.  On a notified submission the
timekeeper's `recv_timeout` returns `Ok` and it debits the head it captured
at sleep start by the total time slept (this model wakes it promptly); a
submission that does not notify leaves the wait running.  A non-notifying
insertion never touches the head entry, so re-reading the head at wake time
agrees with the sleep-start snapshot.  `expire` fires when the full
`head.delay` elapses with no notification: the head is removed and its work
dispatched. -/
def sysStep (s : SysState) : Cmd → Option SysState
  | Cmd.submit e d =>
    match s.queue with
    | [] =>
      let p := Timeout.new s.nextId (s.now + e) d
      let r := delayed_work_submit_queue [] p.1
      some { now := s.now + e, waited := 0, nextId := p.2, queue := r.1,
             subLog := s.subLog ++ [(p.1.id, s.now + e, d)],
             dispatchLog := s.dispatchLog }
    | hd :: _ =>
      if s.waited + e ≤ hd.delay then
        let p := Timeout.new s.nextId (s.now + e) d
        let r := delayed_work_submit_queue s.queue p.1
        if r.2 then
          some { now := s.now + e, waited := 0, nextId := p.2,
                 queue := timeouts_decr_delay hd.id (s.waited + e) r.1,
                 subLog := s.subLog ++ [(p.1.id, s.now + e, d)],
                 dispatchLog := s.dispatchLog }
        else
          some { now := s.now + e, waited := s.waited + e, nextId := p.2,
                 queue := r.1,
                 subLog := s.subLog ++ [(p.1.id, s.now + e, d)],
                 dispatchLog := s.dispatchLog }
      else none
  | Cmd.expire =>
    match s.queue with
    | [] => none
    | hd :: _ =>
      match timeouts_remove hd.id s.queue with
      | some (t, q') =>
        some { now := s.now + (hd.delay - s.waited), waited := 0,
               nextId := s.nextId, queue := q', subLog := s.subLog,
               dispatchLog := s.dispatchLog ++ [(t.id, s.now + (hd.delay - s.waited))] }
      | none => none

/-- Run a command list from a state, failing if any step is inapplicable. -/
def sysRun (s : SysState) : List Cmd → Option SysState
  | [] => some s
  | c :: cs =>
    match sysStep s c with
    | some s' => sysRun s' cs
    | none => none

/-- Startup state: empty queue, clock and counter at zero. -/
def initState : SysState :=
  { now := 0, waited := 0, nextId := 0, queue := [], subLog := [], dispatchLog := [] }

/-- Absolute time remaining, from the state's current instant, until the
given submitted timeout ought to fire: its submission time plus its
requested delay, minus `now`. -/
def targetRemaining (s : SysState) (i : Nat) : Option Nat :=
  Option.map (fun p => p.2.1 + p.2.2 - s.now)
    (List.find? (fun p => p.1 == i) s.subLog)

/-! Helper lemmas about the insertion walk. -/

/-- If the walk passes every entry of `p` and then meets `t` with a delay
strictly above the running remaining, it splits exactly there. -/
theorem submitWalk_split (new t : Timeout) (rest : List Timeout) :
    ∀ (p : List Timeout) (d : Nat), walksPast d p = true →
      remainingAfter d p < t.delay →
      submitWalk new d (p ++ t :: rest) =
        Sum.inl (p ++ { new with delay := remainingAfter d p } ::
          { t with delay := t.delay - remainingAfter d p } :: rest, p.length) := by
  intro p
  induction p with
  | nil =>
    intro d _ h2
    simp only [remainingAfter] at h2
    simp [submitWalk, remainingAfter, h2]
  | cons u p' ih =>
    intro d hw hs
    simp only [walksPast, Bool.and_eq_true, decide_eq_true_eq] at hw
    obtain ⟨h1, h2⟩ := hw
    have hnot : ¬ (u.delay > d) := not_lt.mpr h1
    simp only [remainingAfter] at hs
    simp only [List.cons_append, submitWalk, hnot, if_false, List.append_eq]
    rw [ih (d - u.delay) h2 hs]
    simp [remainingAfter]

/-- The walk always reports an output list one longer than its input. -/
theorem submitWalk_inl_length (new : Timeout) :
    ∀ (q : List Timeout) (d : Nat) (q' : List Timeout) (i : Nat),
      submitWalk new d q = Sum.inl (q', i) → q'.length = q.length + 1 := by
  intro q
  induction q with
  | nil => intro d q' i h; simp [submitWalk] at h
  | cons t ts ih =>
    intro d q' i h
    by_cases hc : t.delay > d
    · simp only [submitWalk, hc, if_true, Sum.inl.injEq, Prod.mk.injEq] at h
      obtain ⟨hq, _⟩ := h
      subst hq
      simp
    · simp only [submitWalk, hc, if_false] at h
      cases hrec : submitWalk new (d - t.delay) ts with
      | inl x =>
        obtain ⟨ts', j⟩ := x
        rw [hrec] at h
        simp only [Sum.inl.injEq, Prod.mk.injEq] at h
        obtain ⟨hq, _⟩ := h
        subst hq
        simp [ih (d - t.delay) ts' j hrec]
      | inr r => rw [hrec] at h; simp at h

/-- Where the new element sits: at a split with index 0 it is the head of
the result; at any deeper split the head of the result is the head of the
input queue. -/
theorem submitWalk_front (new : Timeout) :
    ∀ (q : List Timeout) (d : Nat) (q' : List Timeout) (i : Nat),
      submitWalk new d q = Sum.inl (q', i) →
      (i = 0 ∧ List.head? q' = some { new with delay := d }) ∨
      (i ≠ 0 ∧ List.head? q' = List.head? q) := by
  intro q
  induction q with
  | nil => intro d q' i h; simp [submitWalk] at h
  | cons t ts ih =>
    intro d q' i h
    by_cases hc : t.delay > d
    · simp only [submitWalk, hc, if_true, Sum.inl.injEq, Prod.mk.injEq] at h
      obtain ⟨hq, hi⟩ := h
      subst hq; subst hi
      left
      exact ⟨rfl, rfl⟩
    · simp only [submitWalk, hc, if_false] at h
      cases hrec : submitWalk new (d - t.delay) ts with
      | inl x =>
        obtain ⟨ts', j⟩ := x
        rw [hrec] at h
        simp only [Sum.inl.injEq, Prod.mk.injEq] at h
        obtain ⟨hq, hi⟩ := h
        subst hq; subst hi
        right
        exact ⟨Nat.succ_ne_zero j, rfl⟩
      | inr r => rw [hrec] at h; simp at h

/-- The successful submit path grows the queue by exactly one element. -/
theorem submit_queue_length (q : List Timeout) (new : Timeout) :
    (delayed_work_submit_queue q new).1.length = q.length + 1 := by
  unfold delayed_work_submit_queue
  cases hrec : submitWalk new new.delay q with
  | inl x =>
    obtain ⟨q', i⟩ := x
    simpa using submitWalk_inl_length new q new.delay q' i hrec
  | inr r => simp

/-! Helper lemmas about id-directed queue edits. -/

/-- `timeouts_decr_delay` leaves a list with no matching id untouched. -/
theorem timeouts_decr_delay_of_no_match (i ch : Nat) :
    ∀ ts : List Timeout, (∀ u ∈ ts, u.id ≠ i) → timeouts_decr_delay i ch ts = ts := by
  intro ts
  induction ts with
  | nil => intro _; rfl
  | cons u us ih =>
    intro h
    have hu : u.id ≠ i := h u (List.mem_cons_self u us)
    have hbeq : (u.id == i) = false := by simpa using hu
    simp only [timeouts_decr_delay, hbeq, Bool.false_eq_true, if_false]
    rw [ih (fun v hv => h v (List.mem_cons_of_mem u hv))]

/-- Zipping a list with itself leaves nothing for the mismatch filter. -/
theorem filter_zip_self_nil : ∀ ts : List Timeout,
    List.filter (fun p => decide (p.1 ≠ p.2)) (List.zip ts ts) = [] := by
  intro ts
  induction ts with
  | nil => rfl
  | cons u us ih =>
    simp only [List.zip_cons_cons]
    rw [List.filter_cons]
    simpa using ih

/-- On a queue whose ids are pairwise distinct, a delay debit changes at
most one entry. -/
theorem decr_diff_le_one (i ch : Nat) :
    ∀ q : List Timeout, (List.map Timeout.id q).Nodup →
      diffCount q (timeouts_decr_delay i ch q) ≤ 1 := by
  intro q
  induction q with
  | nil => intro _; simp [diffCount, timeouts_decr_delay]
  | cons t ts ih =>
    intro hnd
    simp only [List.map_cons, List.nodup_cons, List.mem_map] at hnd
    obtain ⟨hnotin, hnd'⟩ := hnd
    by_cases hti : t.id = i
    · have hrest : ∀ u ∈ ts, u.id ≠ i := by
        intro u hu hui
        exact hnotin ⟨u, hu, by rw [hui, hti]⟩
      have hbeq : (t.id == i) = true := by simpa using hti
      simp only [timeouts_decr_delay, hbeq, if_true,
        timeouts_decr_delay_of_no_match i ch ts hrest]
      simp only [diffCount, List.zip_cons_cons]
      rw [List.filter_cons]
      have hnil := filter_zip_self_nil ts
      split <;> rw [hnil] <;> simp <;> split <;> simp
    · have hbeq : (t.id == i) = false := by simpa using hti
      simp only [timeouts_decr_delay, hbeq, Bool.false_eq_true, if_false]
      have hih := ih hnd'
      simp only [diffCount, List.zip_cons_cons] at hih ⊢
      rw [List.filter_cons]
      simpa using hih

/-- `timeouts_remove` returning a hit splits the queue at the first entry
carrying the requested id and deletes exactly that entry. -/
theorem timeouts_remove_split (i : Nat) :
    ∀ (q : List Timeout) (t : Timeout) (q' : List Timeout),
      timeouts_remove i q = some (t, q') →
      ∃ pre post, q = pre ++ t :: post ∧ q' = pre ++ post ∧ t.id = i := by
  intro q
  induction q with
  | nil => intro t q' h; simp [timeouts_remove] at h
  | cons u us ih =>
    intro t q' h
    by_cases hui : u.id = i
    · have hbeq : (u.id == i) = true := by simpa using hui
      simp only [timeouts_remove, hbeq, if_true, Option.some.injEq, Prod.mk.injEq] at h
      obtain ⟨ht, hq⟩ := h
      subst ht; subst hq
      exact ⟨[], us, rfl, rfl, hui⟩
    · have hbeq : (u.id == i) = false := by simpa using hui
      simp only [timeouts_remove, hbeq, Bool.false_eq_true, if_false] at h
      cases hrec : timeouts_remove i us with
      | some x =>
        obtain ⟨r, us'⟩ := x
        rw [hrec] at h
        simp only [Option.some.injEq, Prod.mk.injEq] at h
        obtain ⟨ht, hq⟩ := h
        obtain ⟨pre, post, h1, h2, h3⟩ := ih r us' hrec
        refine ⟨u :: pre, post, ?_, ?_, ?_⟩
        · rw [h1, ht]; rfl
        · rw [← hq, h2]; rfl
        · rw [← ht]; exact h3
      | none => rw [hrec] at h; simp at h

/-- Every timeout minted after counter value `c` carries an id above `c`. -/
theorem newSeq_id_gt : ∀ (xs : List (Nat × Nat)) (c : Nat) (t : Timeout),
    t ∈ newSeq c xs → c < t.id := by
  intro xs
  induction xs with
  | nil => intro c t h; simp [newSeq] at h
  | cons p ps ih =>
    intro c t h
    obtain ⟨n, d⟩ := p
    simp only [newSeq, Timeout.new, List.mem_cons] at h
    rcases h with h | h
    · subst h; exact Nat.lt_succ_self c
    · exact Nat.lt_of_succ_lt (ih (c + 1) t h)

/-- Ids minted by successive `Timeout::new` calls strictly increase. -/
theorem newSeq_pairwise : ∀ (xs : List (Nat × Nat)) (c : Nat),
    List.Pairwise (· < ·) (List.map Timeout.id (newSeq c xs)) := by
  intro xs
  induction xs with
  | nil => intro c; simp [newSeq]
  | cons p ps ih =>
    intro c
    obtain ⟨n, d⟩ := p
    simp only [newSeq, Timeout.new, List.map_cons, List.pairwise_cons]
    constructor
    · intro b hb
      simp only [List.mem_map] at hb
      obtain ⟨t, ht, hbt⟩ := hb
      rw [← hbt]
      exact newSeq_id_gt ps (c + 1) t ht
    · exact ih (c + 1)

/-! Claim theorems. -/

/-- Claim C1: the prefix-sum invariant fails on a reachable state.  From the
empty queue, submitting delay 50 and then delay 100 (no sleep debits) makes
the run-off-the-end `insert_after` land the second timeout (id 2) at the
front with delta 50, so the delta sum over the one-element front portion of
the queue is 50, while the absolute time remaining until id 2 should fire,
measured from the last synchronization instant, is 100. -/
theorem delta_sum_misses_target :
    ∃ s : SysState,
      sysRun initState [Cmd.submit 0 50, Cmd.submit 0 100] = some s
      ∧ List.map Timeout.id s.queue = [2, 1]
      ∧ queueDelaySum s.queue 1 = 50
      ∧ targetRemaining s 2 = some 100
      ∧ queueDelaySum s.queue 1 ≠ 100 :=
  ⟨⟨0, 0, 2, [⟨2, 50, 100, 100⟩, ⟨1, 50, 50, 50⟩], [(1, 0, 50), (2, 0, 100)], []⟩,
    by decide⟩

/-- Claim C2: the split step of the insertion walk.  If every entry of the
front portion `p` has delay at most the running remaining and `t` is the
first entry whose delay strictly exceeds it, then `t`'s delay is debited by
the remaining, and the new timeout is inserted immediately before `t`
carrying the remaining as its delay field; entries of `p` and entries after
`t` are untouched. -/
theorem insertion_split_step (new : Timeout) (p : List Timeout) (t : Timeout)
    (rest : List Timeout)
    (hw : walksPast new.delay p = true)
    (hs : remainingAfter new.delay p < t.delay) :
    (delayed_work_submit_queue (p ++ t :: rest) new).1 =
      p ++ { new with delay := remainingAfter new.delay p } ::
        { t with delay := t.delay - remainingAfter new.delay p } :: rest := by
  unfold delayed_work_submit_queue
  rw [submitWalk_split new t rest p new.delay hw hs]

/-- Witness for C2 at queue [id 1, delay 30; id 3, delay 70] and a new
timeout of delay 50: the split happens at the 70-entry, remaining 20. -/
theorem insertion_split_step_witness :
    walksPast 50 [⟨1, 30, 30, 30⟩] = true
    ∧ remainingAfter 50 [⟨1, 30, 30, 30⟩] < 70
    ∧ (delayed_work_submit_queue ([⟨1, 30, 30, 30⟩] ++ ⟨3, 70, 70, 70⟩ :: []) ⟨2, 50, 50, 50⟩).1 =
        [⟨1, 30, 30, 30⟩] ++
          { (⟨2, 50, 50, 50⟩ : Timeout) with delay := remainingAfter 50 [⟨1, 30, 30, 30⟩] } ::
            { (⟨3, 70, 70, 70⟩ : Timeout) with delay := 70 - remainingAfter 50 [⟨1, 30, 30, 30⟩] } :: [] :=
  ⟨by decide, by decide,
    insertion_split_step ⟨2, 50, 50, 50⟩ [⟨1, 30, 30, 30⟩] ⟨3, 70, 70, 70⟩ []
      (by decide) (by decide)⟩

/-- Claim C3: refuted by evaluation.  With queue [id 1, delta 50] and a new
timeout of delay 100, every existing delta is at most the running remaining,
so the claim predicts an append at the end ([id 1 delta 50; id 2 delta 50]).
The source's `insert_after` at the ghost cursor instead inserts at the
front: the result is [id 2 delta 50; id 1 delta 50] (and the notification is
sent, since `index()` is `None` at the ghost). -/
theorem run_off_end_inserts_at_front :
    delayed_work_submit_queue [⟨1, 50, 50, 50⟩] ⟨2, 100, 100, 100⟩
      = ([⟨2, 50, 100, 100⟩, ⟨1, 50, 50, 50⟩], true)
    ∧ (delayed_work_submit_queue [⟨1, 50, 50, 50⟩] ⟨2, 100, 100, 100⟩).1
      ≠ [⟨1, 50, 50, 50⟩, ⟨2, 50, 100, 100⟩] := by decide

/-- Claim C4, counterexample to the stated bound: head of delay 100, a
submission of delay 50 arriving 60 ms into the wait.  The submitter splits
the stale deltas first ([50, 50]), then the timekeeper debits the original
head by the 60 ms slept (clamped), leaving [50, 0]: the original timeout's
delta sum is 50, not max(0, 100 - 60) = 40. -/
theorem race_clamp_cex :
    delaySumToId 1 (timeouts_decr_delay 1 60
        (delayed_work_submit_queue [⟨1, 100, 100, 100⟩] ⟨2, 50, 50, 50⟩).1)
      = some 50
    ∧ max 0 (100 - 60) = 40
    ∧ delaySumToId 1 (timeouts_decr_delay 1 60
        (delayed_work_submit_queue [⟨1, 100, 100, 100⟩] ⟨2, 50, 50, 50⟩).1)
      ≠ some (max 0 (100 - 60)) := by decide

/-- Claim C4 as amended: with a head of delay `d1`, a submission of delay
`d2 < d1` processed `e` ms into the wait (insertion against the stale
deltas, then the debit of `e` on the original head) leaves the original
timeout's delta sum at max(d2, d1 - e) — equal to the claimed
max(0, d1 - e) exactly when e ≤ d1 - d2, and never reset to d1. -/
theorem race_remaining_after_debit (d1 d2 e : Nat) (h : d2 < d1) :
    delaySumToId 1 (timeouts_decr_delay 1 e
        (delayed_work_submit_queue [⟨1, d1, d1, d1⟩] ⟨2, d2, d2, d2⟩).1)
      = some (max d2 (d1 - e)) := by
  have h1 : delayed_work_submit_queue [⟨1, d1, d1, d1⟩] ⟨2, d2, d2, d2⟩
      = ([⟨2, d2, d2, d2⟩, ⟨1, d1 - d2, d1, d1⟩], true) := by
    simp [delayed_work_submit_queue, submitWalk, h]
  by_cases hc : d1 - d2 < e
  · simp [h1, timeouts_decr_delay, hc, delaySumToId]
    omega
  · simp [h1, timeouts_decr_delay, hc, delaySumToId]
    omega

/-- Witness for C4 as amended at d1 = 100, d2 = 30, e = 10. -/
theorem race_remaining_after_debit_witness :
    30 < 100
    ∧ delaySumToId 1 (timeouts_decr_delay 1 10
        (delayed_work_submit_queue [⟨1, 100, 100, 100⟩] ⟨2, 30, 30, 30⟩).1)
      = some (max 30 (100 - 10)) :=
  ⟨by decide, race_remaining_after_debit 100 30 10 (by decide)⟩

/-- Claim C5: refuted by a concrete schedule.  Submit delay 50 then delay
100 in quick succession; the second lands at the front with delta 50
(ghost-cursor `insert_after`), so the first expiry dispatches the 100 ms
timeout (id 2) only 50 ms after its submission — before its target
expiry. -/
theorem early_dispatch_trace :
    ∃ s : SysState,
      sysRun initState [Cmd.submit 0 50, Cmd.submit 0 100, Cmd.expire] = some s
      ∧ s.subLog = [(1, 0, 50), (2, 0, 100)]
      ∧ s.dispatchLog = [(2, 50)]
      ∧ 50 < 0 + 100 :=
  ⟨⟨50, 0, 2, [⟨1, 50, 50, 50⟩], [(1, 0, 50), (2, 0, 100)], [(2, 50)]⟩, by decide⟩

/-- Claim C6, counterexample: a successful submit call changes the queue (it
inserts the new timeout itself under the lock), so the queue state is not
left unchanged by the caller. -/
theorem submit_mutates_queue_cex :
    delayed_work_submit false false [] ⟨1, 50, 50, 50⟩
      = SubmitResult.ok [⟨1, 50, 50, 50⟩] true
    ∧ ([⟨1, 50, 50, 50⟩] : List Timeout) ≠ [] := by decide

/-- Claim C6 as amended: submit acquires the shared lock and mutates the
Timeout Queue directly — every successful call grows the queue by exactly
one entry (so the post-queue never equals the pre-queue); only a unit
notification travels to the Timekeeper. -/
theorem submit_inserts_into_queue (q : List Timeout) (newT : Timeout) :
    ∃ q' n, delayed_work_submit false false q newT = SubmitResult.ok q' n
      ∧ q'.length = q.length + 1 ∧ q' ≠ q := by
  refine ⟨(delayed_work_submit_queue q newT).1, (delayed_work_submit_queue q newT).2,
    ?_, submit_queue_length q newT, ?_⟩
  · simp [delayed_work_submit]
  · intro hcontra
    have hlen := submit_queue_length q newT
    rw [hcontra] at hlen
    omega

/-- Claim C7, counterexample: with the Timekeeper's receiving end gone and
an insertion that lands at the front (here: empty queue), submit panics on
the notification send instead of returning an error. -/
theorem submit_panics_on_dead_receiver :
    delayed_work_submit false true [] ⟨1, 50, 50, 50⟩ = SubmitResult.panicked := by
  decide

/-- Claim C7 as amended: submit returns its only error (the static message
Lock failed) exactly when the queue mutex is poisoned; when the mutex is
healthy but the notification receiver is gone and the insertion lands at
the front it panics on the send; in the remaining cases it returns Ok with
the updated queue. -/
theorem submit_error_contract (p g : Bool) (q : List Timeout) (t : Timeout) :
    (delayed_work_submit p g q t = SubmitResult.lockFailed ↔ p = true)
    ∧ (delayed_work_submit p g q t = SubmitResult.panicked
        ↔ (p = false ∧ g = true ∧ (delayed_work_submit_queue q t).2 = true))
    ∧ (p = false → g = false →
        delayed_work_submit p g q t
          = SubmitResult.ok (delayed_work_submit_queue q t).1
              (delayed_work_submit_queue q t).2) := by
  cases p <;> cases g <;>
    simp only [delayed_work_submit] <;>
    cases h : (delayed_work_submit_queue q t).2 <;> simp [h]

/-- Witness for C7 as amended: healthy mutex, live receiver, empty queue. -/
theorem submit_error_contract_witness :
    delayed_work_submit false false [] (⟨1, 5, 5, 5⟩ : Timeout)
      = SubmitResult.ok (delayed_work_submit_queue [] ⟨1, 5, 5, 5⟩).1
          (delayed_work_submit_queue [] ⟨1, 5, 5, 5⟩).2 :=
  (submit_error_contract false false [] ⟨1, 5, 5, 5⟩).2.2 rfl rfl

/-- Claim C8: refuted by a concrete schedule.  Two timeouts submitted with
identical delay 50: the second walk debits its remaining to 0, runs off the
end, and the ghost-cursor `insert_after` puts it at the FRONT with delta 0,
so the later-submitted timeout fires first (immediately), not after the
earlier one. -/
theorem equal_delay_fires_reversed :
    ∃ s : SysState,
      sysRun initState [Cmd.submit 0 50, Cmd.submit 0 50, Cmd.expire, Cmd.expire] = some s
      ∧ s.subLog = [(1, 0, 50), (2, 0, 50)]
      ∧ s.dispatchLog = [(2, 0), (1, 50)] :=
  ⟨⟨50, 0, 2, [], [(1, 0, 50), (2, 0, 50)], [(2, 0), (1, 50)]⟩, by decide⟩

/-- Claim C9: the unit notification is sent iff the newly inserted timeout
ends up at the front of the queue (including the empty-queue case); a split
deeper in the queue sends nothing.  Freshness of the new id (guaranteed by
the global counter) identifies the new element. -/
theorem notify_iff_new_front (q : List Timeout) (new : Timeout)
    (hfresh : new.id ∉ List.map Timeout.id q) :
    (delayed_work_submit_queue q new).2 = true ↔
      Option.map Timeout.id (List.head? (delayed_work_submit_queue q new).1)
        = some new.id := by
  unfold delayed_work_submit_queue
  cases hrec : submitWalk new new.delay q with
  | inr r => simp
  | inl x =>
    obtain ⟨q', i⟩ := x
    rcases submitWalk_front new q new.delay q' i hrec with ⟨hi, hh⟩ | ⟨hi, hh⟩
    · subst hi
      simp [hh]
    · cases q with
      | nil => simp [submitWalk] at hrec
      | cons a as =>
        have haid : a.id ≠ new.id := by
          intro hcontra
          apply hfresh
          rw [← hcontra]
          exact List.mem_map_of_mem Timeout.id (List.mem_cons_self a as)
        simp [hh, hi, haid]

/-- Witness for C9: queue [id 1, delta 50], new timeout id 2 of delay 100 —
the run-off-the-end insertion notifies and the new element is the head. -/
theorem notify_iff_new_front_witness :
    ((⟨2, 100, 100, 100⟩ : Timeout).id ∉ List.map Timeout.id [⟨1, 50, 50, 50⟩])
    ∧ ((delayed_work_submit_queue [⟨1, 50, 50, 50⟩] ⟨2, 100, 100, 100⟩).2 = true ↔
        Option.map Timeout.id
            (List.head? (delayed_work_submit_queue [⟨1, 50, 50, 50⟩] ⟨2, 100, 100, 100⟩).1)
          = some (⟨2, 100, 100, 100⟩ : Timeout).id) :=
  ⟨by decide, notify_iff_new_front [⟨1, 50, 50, 50⟩] ⟨2, 100, 100, 100⟩ (by decide)⟩

/-- Claim C10: identity discipline.  Successive `Timeout::new` calls mint
strictly increasing (hence pairwise distinct) ids; `PartialEq` on `Timeout`
holds exactly on id equality; and on a queue with pairwise distinct ids a
delay debit changes at most one entry while a removal deletes exactly the
first (hence only) entry carrying the requested id. -/
theorem timeout_identity :
    (∀ (c : Nat) (xs : List (Nat × Nat)),
        List.Pairwise (· < ·) (List.map Timeout.id (newSeq c xs)))
    ∧ (∀ a b : Timeout, timeout_eq a b = true ↔ a.id = b.id)
    ∧ (∀ (i ch : Nat) (q : List Timeout), (List.map Timeout.id q).Nodup →
        diffCount q (timeouts_decr_delay i ch q) ≤ 1)
    ∧ (∀ (i : Nat) (q : List Timeout) (t : Timeout) (q' : List Timeout),
        timeouts_remove i q = some (t, q') →
        ∃ pre post, q = pre ++ t :: post ∧ q' = pre ++ post ∧ t.id = i) := by
  refine ⟨fun c xs => newSeq_pairwise xs c, ?_,
    fun i ch q h => decr_diff_le_one i ch q h,
    fun i q t q' h => timeouts_remove_split i q t q' h⟩
  intro a b
  simp [timeout_eq]

/-- Witness for C10 on the queue [id 1, delay 10; id 2, delay 20]: a debit
addressed to id 1 changes at most one entry, and removing id 1 deletes
exactly that entry. -/
theorem timeout_identity_witness :
    diffCount [⟨1, 10, 10, 10⟩, ⟨2, 20, 20, 20⟩]
        (timeouts_decr_delay 1 5 [⟨1, 10, 10, 10⟩, ⟨2, 20, 20, 20⟩]) ≤ 1
    ∧ ∃ pre post,
        ([⟨1, 10, 10, 10⟩, ⟨2, 20, 20, 20⟩] : List Timeout)
          = pre ++ (⟨1, 10, 10, 10⟩ : Timeout) :: post
        ∧ ([⟨2, 20, 20, 20⟩] : List Timeout) = pre ++ post
        ∧ (⟨1, 10, 10, 10⟩ : Timeout).id = 1 :=
  ⟨timeout_identity.2.2.1 1 5 [⟨1, 10, 10, 10⟩, ⟨2, 20, 20, 20⟩] (by decide),
   timeout_identity.2.2.2 1 [⟨1, 10, 10, 10⟩, ⟨2, 20, 20, 20⟩] ⟨1, 10, 10, 10⟩
     [⟨2, 20, 20, 20⟩] (by decide)⟩

end Schedhack

